import Mathlib

/-
Shallow embedding of `stack_pool.hpp`: a pool-based allocator storing many
singly-linked stacks inside one growable backing store.  Nodes are identified
by integral handles; handle 0 is the end-of-stack sentinel and node `x`
occupies slot `x - 1` of the backing store.

Modelling decisions:
* `std::vector<node_t>` becomes a `List (node_t α)` together with an explicit
  `cap` field modelling `capacity()`: `reserve n` takes the max, `push_back`
  grows the capacity geometrically exactly when it is full.
* The unchecked access `pool[x-1]` is modelled with `List.getD`, reading a
  default node when the index is out of range (the C++ behaviour there is
  undefined; all claims carry validity hypotheses).  Likewise `List.set` out
  of range is a no-op.
* The iterator walk in `free_stack` is a straight tail search; it is modelled
  by the fuel-based `find_tail` with fuel `pool.length`, which is enough fuel
  for every non-cyclic in-range chain (the C++ loop does not terminate on a
  cyclic chain, which no claim concerns).
-/

namespace StackPool

/-- Source `node_t` from `stack_pool.hpp`: a stored value and the handle of the next
node.  Handle 0 (the sentinel) means end of chain. -/
structure node_t (α : Type) where
  value : α
  next : Nat
  deriving Repr, DecidableEq, Inhabited

/-- The handle value `end()` returns: `stack_type(0)`. -/
def sentinel : Nat := 0

/-- The pool state: backing store `pool`, its vector capacity `cap`, and the
free-list head `free_nodes`. -/
structure stack_pool (α : Type) where
  pool : List (node_t α)
  cap : Nat
  free_nodes : Nat
  deriving Repr, DecidableEq

variable {α : Type} [Inhabited α]

/-- Source `node(x) { return pool[x-1]; }` (unchecked access modelled by `getD`). -/
def stack_pool.node (p : stack_pool α) (x : Nat) : node_t α :=
  p.pool.getD (x - 1) default

/-- Source `value(x) { return node(x).value; }` -/
def stack_pool.value (p : stack_pool α) (x : Nat) : α := (p.node x).value

/-- Source `next(x) { return node(x).next; }` -/
def stack_pool.next (p : stack_pool α) (x : Nat) : Nat := (p.node x).next

/-- Writing through the lvalue `next(x)`. -/
def stack_pool.set_next (p : stack_pool α) (x n : Nat) : stack_pool α :=
  { p with pool := p.pool.set (x - 1) { p.node x with next := n } }

/-- Writing through the lvalue `value(x)`. -/
def stack_pool.set_value (p : stack_pool α) (x : Nat) (v : α) : stack_pool α :=
  { p with pool := p.pool.set (x - 1) { p.node x with value := v } }

/-- Source `new_stack()` returns `end()`. -/
def stack_pool.new_stack (_ : stack_pool α) : Nat := sentinel

/-- Source `empty(x)` is `x == end()`. -/
def stack_pool.empty (_ : stack_pool α) (x : Nat) : Bool := x == sentinel

/-- Source `capacity()` returns `pool.capacity()`. -/
def stack_pool.capacity (p : stack_pool α) : Nat := p.cap

/-- Source `reserve(n)` calls `pool.reserve(n)`: the capacity becomes at least `n`
and never shrinks. -/
def stack_pool.reserve (p : stack_pool α) (n : Nat) : stack_pool α :=
  { p with cap := max p.cap n }

/-- Source `pool.push_back(nd)`: appends one node; the capacity grows geometrically
exactly when the vector is full. -/
def stack_pool.push_back (p : stack_pool α) (nd : node_t α) : stack_pool α :=
  { p with
    pool := p.pool ++ [nd]
    cap := if p.pool.length < p.cap then p.cap else max 1 (2 * p.cap) }

/-- The default-constructed pool: empty backing store, empty free list. -/
def new_pool (α : Type) [Inhabited α] : stack_pool α :=
  { pool := [], cap := 0, free_nodes := sentinel }

/-- Source `_push(val, head)`: if the free list is empty, append one fresh node
(with `next = end()`) and make it the free-list head; then detach the
free-list head, link it in front of `head`, store the value, and return it. -/
def stack_pool._push (p : stack_pool α) (val : α) (head : Nat) :
    stack_pool α × Nat :=
  let p1 :=
    if p.free_nodes = sentinel then
      let p' := p.push_back { value := default, next := sentinel }
      { p' with free_nodes := p'.pool.length }
    else p
  let new_head := p1.free_nodes
  let p2 := { p1 with free_nodes := p1.next new_head }
  let p3 := (p2.set_next new_head head).set_value new_head val
  (p3, new_head)

/-- Source `push(val, head)` (both the copy and the move overload reduce to
`_push`). -/
def stack_pool.push (p : stack_pool α) (val : α) (head : Nat) :
    stack_pool α × Nat := p._push val head

/-- Source `pop(head)`: remember `next(head)`, splice the head node onto the free
list, return the old successor. -/
def stack_pool.pop (p : stack_pool α) (head : Nat) : stack_pool α × Nat :=
  let new_stack_head := p.next head
  let p1 := p.set_next head p.free_nodes
  ({ p1 with free_nodes := head }, new_stack_head)

/-- The iterator walk of `free_stack`: follow `next` until it is the
sentinel and return the last node visited.  `fuel` bounds the walk (an
embedding artifact; `pool.length` suffices for in-range non-cyclic chains). -/
def stack_pool.find_tail (p : stack_pool α) : Nat → Nat → Nat
  | 0, cur => cur
  | fuel + 1, cur =>
      if p.next cur = sentinel then cur else p.find_tail fuel (p.next cur)

/-- Source `free_stack(head)`: no-op returning `head` when the stack is empty;
otherwise walk to the chain tail, link the tail to the current free-list
head, make `head` the free-list head, and return `end()`. -/
def stack_pool.free_stack (p : stack_pool α) (head : Nat) :
    stack_pool α × Nat :=
  if head = sentinel then (p, head)
  else
    let tail := p.find_tail p.pool.length head
    let p1 := p.set_next tail p.free_nodes
    ({ p1 with free_nodes := head }, sentinel)

/-- The `_iterator` class: it remembers a handle and (through a pointer) the
pool it was constructed over. -/
structure _iterator (α : Type) where
  head : Nat
  pool : stack_pool α

/-- Source `operator=`: copies the handle only; the pool pointer of the target is
left as it was. -/
def _iterator.assign (a b : _iterator α) : _iterator α := { a with head := b.head }

/-- Source `operator*`: `pool->value(head)`. -/
def _iterator.deref (i : _iterator α) : α := i.pool.value i.head

/-- Source `operator++`: `head = pool->next(head)`. -/
def _iterator.inc (i : _iterator α) : _iterator α :=
  { i with head := i.pool.next i.head }

/-- Source `operator==`: compares the handles only. -/
def _iterator.beq (a b : _iterator α) : Bool := a.head == b.head

/-- Source `begin(x)`: an iterator over this pool positioned at `x`. -/
def stack_pool.begin (p : stack_pool α) (x : Nat) : _iterator α :=
  { head := x, pool := p }

/-- Source `end(x)`: an iterator over this pool positioned at the sentinel,
ignoring `x`. -/
def stack_pool.endIt (p : stack_pool α) (_ : Nat) : _iterator α :=
  { head := sentinel, pool := p }

/-- A sentinel-terminated chain: the list of handles visited by repeatedly
following `next` from a starting handle down to the sentinel. -/
inductive is_chain (p : stack_pool α) : Nat → List Nat → Prop
  | nil : is_chain p sentinel []
  | cons {x : Nat} {l : List Nat} :
      x ≠ sentinel → is_chain p (p.next x) l → is_chain p x (x :: l)

/-- All handles of `l` index live slots of the backing store. -/
def in_range (p : stack_pool α) (l : List Nat) : Prop :=
  ∀ x ∈ l, x ≤ p.pool.length

/-- Reading the values of a stack front to back by repeated `operator++`
and `operator*`, `fuel` bounding the walk. -/
def stack_pool.traverse (p : stack_pool α) : Nat → Nat → List α
  | 0, _ => []
  | fuel + 1, x =>
      if x = sentinel then [] else p.value x :: p.traverse fuel (p.next x)

/-- Pushing a list of values in order, threading the returned head. -/
def stack_pool.push_seq (p : stack_pool α) (head : Nat) :
    List α → stack_pool α × Nat
  | [] => (p, head)
  | v :: vs =>
      let r := p._push v head
      r.1.push_seq r.2 vs

/-- The handles returned by the successive pushes of `push_seq`. -/
def stack_pool.push_trace (p : stack_pool α) (head : Nat) :
    List α → List Nat
  | [] => []
  | v :: vs =>
      let r := p._push v head
      r.2 :: r.1.push_trace r.2 vs

/-- One public pool operation (for statements quantifying over sequences of
operations). -/
inductive op (α : Type) where
  | new_stack : op α
  | reserve (n : Nat) : op α
  | push (v : α) (h : Nat) : op α
  | pop (h : Nat) : op α
  | free_stack (h : Nat) : op α

/-- The pool state after one operation (`new_stack` does not modify the
pool). -/
def stack_pool.step (p : stack_pool α) : op α → stack_pool α
  | .new_stack => p
  | .reserve n => p.reserve n
  | .push v h => (p._push v h).1
  | .pop h => (p.pop h).1
  | .free_stack h => (p.free_stack h).1

/-- The pool state after a sequence of operations. -/
def stack_pool.run (p : stack_pool α) : List (op α) → stack_pool α
  | [] => p
  | o :: os => (p.step o).run os

/-- The free-list invariant: the free list is a sentinel-terminated chain of
in-range handles. -/
def free_ok (p : stack_pool α) : Prop :=
  ∃ F, is_chain p p.free_nodes F ∧ in_range p F

/-- A concrete three-node pool (the stack 3 → 2 → 1 with values 30, 20, 10
and an empty free list) used to instantiate the theorems below. -/
def pc : stack_pool Nat :=
  { pool := [{ value := 10, next := 0 }, { value := 20, next := 1 },
      { value := 30, next := 2 }],
    cap := 4, free_nodes := 0 }

section frame_lemmas

variable (p : stack_pool α)

theorem length_set_next (x n : Nat) :
    (p.set_next x n).pool.length = p.pool.length := by
  simp [stack_pool.set_next]

theorem length_set_value (x : Nat) (v : α) :
    (p.set_value x v).pool.length = p.pool.length := by
  simp [stack_pool.set_value]

theorem cap_set_next (x n : Nat) : (p.set_next x n).cap = p.cap := rfl

theorem cap_set_value (x : Nat) (v : α) : (p.set_value x v).cap = p.cap := rfl

theorem free_nodes_set_next (x n : Nat) :
    (p.set_next x n).free_nodes = p.free_nodes := rfl

theorem next_set_next_self {x : Nat} (hx : 1 ≤ x) (hlen : x ≤ p.pool.length)
    (n : Nat) : (p.set_next x n).next x = n := by
  have hidx : x - 1 < p.pool.length := by omega
  simp [stack_pool.set_next, stack_pool.next, stack_pool.node,
    List.getD_eq_getElem?_getD, List.getElem?_set_self hidx]

theorem next_set_next_ne {x y : Nat} (hx : 1 ≤ x) (hy : 1 ≤ y) (hxy : x ≠ y)
    (n : Nat) : (p.set_next y n).next x = p.next x := by
  have hidx : y - 1 ≠ x - 1 := by omega
  simp [stack_pool.set_next, stack_pool.next, stack_pool.node,
    List.getD_eq_getElem?_getD, List.getElem?_set_ne hidx]

theorem value_set_next (x y n : Nat) :
    (p.set_next y n).value x = p.value x := by
  simp only [stack_pool.set_next, stack_pool.value, stack_pool.node,
    List.getD_eq_getElem?_getD, List.getElem?_set]
  by_cases h : y - 1 = x - 1
  · rw [if_pos h]
    by_cases h2 : y - 1 < p.pool.length
    · rw [h] at h2
      simp [h, h2]
    · rw [if_neg h2]
      have hx : p.pool.length ≤ x - 1 := by omega
      simp [List.getElem?_eq_none hx]
  · rw [if_neg h]

theorem next_set_value (x y : Nat) (v : α) :
    (p.set_value y v).next x = p.next x := by
  simp only [stack_pool.set_value, stack_pool.next, stack_pool.node,
    List.getD_eq_getElem?_getD, List.getElem?_set]
  by_cases h : y - 1 = x - 1
  · rw [if_pos h]
    by_cases h2 : y - 1 < p.pool.length
    · rw [h] at h2
      simp [h, h2]
    · rw [if_neg h2]
      have hx : p.pool.length ≤ x - 1 := by omega
      simp [List.getElem?_eq_none hx]
  · rw [if_neg h]

theorem value_set_value_self {x : Nat} (hx : 1 ≤ x) (hlen : x ≤ p.pool.length)
    (v : α) : (p.set_value x v).value x = v := by
  have hidx : x - 1 < p.pool.length := by omega
  simp [stack_pool.set_value, stack_pool.value, stack_pool.node,
    List.getD_eq_getElem?_getD, List.getElem?_set_self hidx]

theorem value_set_value_ne {x y : Nat} (hx : 1 ≤ x) (hy : 1 ≤ y) (hxy : x ≠ y)
    (v : α) : (p.set_value y v).value x = p.value x := by
  have hidx : y - 1 ≠ x - 1 := by omega
  simp [stack_pool.set_value, stack_pool.value, stack_pool.node,
    List.getD_eq_getElem?_getD, List.getElem?_set_ne hidx]

theorem node_push_back_old (nd : node_t α) {x : Nat} (hx : 1 ≤ x)
    (hlen : x ≤ p.pool.length) : (p.push_back nd).node x = p.node x := by
  have hidx : x - 1 < p.pool.length := by omega
  simp [stack_pool.push_back, stack_pool.node, List.getD_eq_getElem?_getD,
    List.getElem?_append, hidx]

theorem node_push_back_new (nd : node_t α) :
    (p.push_back nd).node (p.pool.length + 1) = nd := by
  simp [stack_pool.push_back, stack_pool.node, List.getD_eq_getElem?_getD,
    List.getElem?_concat_length]

theorem length_push_back (nd : node_t α) :
    (p.push_back nd).pool.length = p.pool.length + 1 := by
  simp [stack_pool.push_back]

end frame_lemmas

section chain_lemmas

variable {p q : stack_pool α}

theorem chain_sentinel {l : List Nat} (h : is_chain p sentinel l) : l = [] := by
  cases h with
  | nil => rfl
  | cons hx _ => exact absurd rfl hx

theorem chain_nil_eq {x : Nat} (h : is_chain p x []) : x = sentinel := by
  cases h
  rfl

theorem chain_pos {x : Nat} {l : List Nat} (h : is_chain p x l) :
    ∀ y ∈ l, 1 ≤ y := by
  induction h with
  | nil => intro y hy; cases hy
  | @cons z m hx _ ih =>
      intro y hy
      rcases List.mem_cons.1 hy with h1 | h1
      · subst h1
        have h0 : y ≠ 0 := hx
        omega
      · exact ih y h1

theorem chain_frame {x : Nat} {l : List Nat} (h : is_chain p x l)
    (hfr : ∀ y ∈ l, q.next y = p.next y) : is_chain q x l := by
  induction h with
  | nil => exact .nil
  | cons hx _ ih =>
      refine .cons hx ?_
      rw [hfr _ (List.mem_cons_self _ _)]
      exact ih fun y hy => hfr y (List.mem_cons_of_mem _ hy)

theorem chain_unique {x : Nat} {l m : List Nat} (h1 : is_chain p x l)
    (h2 : is_chain p x m) : l = m := by
  induction h1 generalizing m with
  | nil =>
      cases h2 with
      | nil => rfl
      | cons hx _ => exact absurd rfl hx
  | cons hx _ ih =>
      cases h2 with
      | nil => exact absurd rfl hx
      | cons hx2 hc2 => rw [ih hc2]

theorem chain_mem {x : Nat} {l : List Nat} (h : is_chain p x l) :
    ∀ y ∈ l, ∃ m, is_chain p y m ∧ m.length ≤ l.length := by
  induction h with
  | nil => intro y hy; cases hy
  | cons hx hc ih =>
      intro y hy
      rcases List.mem_cons.1 hy with h1 | h1
      · subst h1
        exact ⟨_, .cons hx hc, Nat.le_refl _⟩
      · rcases ih y h1 with ⟨m, hm, hlen⟩
        exact ⟨m, hm, Nat.le_succ_of_le hlen⟩

theorem chain_nodup {x : Nat} {l : List Nat} (h : is_chain p x l) :
    l.Nodup := by
  induction h with
  | nil => exact List.nodup_nil
  | cons hx hc ih =>
      refine List.nodup_cons.2 ⟨?_, ih⟩
      intro hmem
      rcases chain_mem hc _ hmem with ⟨m, hm, hlen⟩
      have heq := chain_unique hm (.cons hx hc)
      rw [heq] at hlen
      simp at hlen

theorem chain_length_le {x : Nat} {l : List Nat} (h : is_chain p x l)
    (hr : in_range p l) : l.length ≤ p.pool.length := by
  have hnd : l.Nodup := chain_nodup h
  have hsub : l.toFinset ⊆ Finset.Icc 1 p.pool.length := by
    intro y hy
    rw [List.mem_toFinset] at hy
    exact Finset.mem_Icc.2 ⟨chain_pos h y hy, hr y hy⟩
  have h2 := Finset.card_le_card hsub
  rw [List.toFinset_card_of_nodup hnd, Nat.card_Icc] at h2
  omega

theorem chain_cons_inv {x b : Nat} {t : List Nat}
    (h : is_chain p x (b :: t)) :
    b = x ∧ x ≠ sentinel ∧ is_chain p (p.next x) t := by
  cases h with
  | cons hx hc => exact ⟨rfl, hx, hc⟩

theorem find_tail_spec {l : List Nat} :
    ∀ {a fuel : Nat}, is_chain p a l → a ≠ sentinel → l.length ≤ fuel + 1 →
      p.find_tail fuel a = (l.getLast?).getD 0 := by
  induction l with
  | nil =>
      intro a fuel h hx _
      cases h with
      | nil => exact absurd rfl hx
  | cons a t ih =>
      intro a fuel h hx hlen
      obtain ⟨ha, hx2, hc⟩ := chain_cons_inv h
      subst ha
      cases t with
      | nil =>
          have hnx : p.next a = sentinel := chain_nil_eq hc
          cases fuel with
          | zero => simp [stack_pool.find_tail, List.getLast?_singleton]
          | succ f =>
              simp [stack_pool.find_tail, hnx, List.getLast?_singleton]
      | cons b t2 =>
          obtain ⟨hb, hx3, hc2⟩ := chain_cons_inv hc
          subst hb
          have hlen2 : t2.length + 2 ≤ fuel + 1 := by
            simpa using hlen
          cases fuel with
          | zero => omega
          | succ f =>
              have hstep : p.find_tail (f + 1) a =
                  p.find_tail f (p.next a) := by
                simp [stack_pool.find_tail, hx3]
              rw [hstep, List.getLast?_cons_cons]
              exact ih (.cons hx3 hc2) hx3 (by simp; omega)

theorem chain_splice {F : List Nat} {z : Nat} {l : List Nat} :
    ∀ {a : Nat}, is_chain p a l → l ≠ [] →
      (∀ y ∈ l, y ≠ (l.getLast?).getD 0 → q.next y = p.next y) →
      q.next ((l.getLast?).getD 0) = z → is_chain q z F →
      is_chain q a (l ++ F) := by
  induction l with
  | nil => intro a _ hne _ _ _; exact absurd rfl hne
  | cons a t ih =>
      intro a h _ hfr htail hF
      obtain ⟨ha, hx, hc⟩ := chain_cons_inv h
      subst ha
      cases t with
      | nil =>
          refine .cons hx ?_
          simp only [List.getLast?_singleton, Option.getD_some] at htail
          rw [htail]
          exact hF
      | cons b t2 =>
          obtain ⟨hb, hx3, hc2⟩ := chain_cons_inv hc
          subst hb
          have hnd : (a :: p.next a :: t2).Nodup :=
            chain_nodup (.cons hx (.cons hx3 hc2))
          have hne2 : p.next a :: t2 ≠ [] := by simp
          obtain ⟨w, hw⟩ : ∃ w, (p.next a :: t2).getLast? = some w :=
            ⟨_, List.getLast?_eq_getLast _ hne2⟩
          have hw2 : w ∈ p.next a :: t2 := by
            rw [List.getLast?_eq_getLast _ hne2] at hw
            rw [← Option.some.inj hw]
            exact List.getLast_mem hne2
          have hx_ne : a ≠ w := by
            intro hc3
            rw [← hc3] at hw2
            exact (List.nodup_cons.1 hnd).1 hw2
          rw [List.getLast?_cons_cons, hw] at htail
          rw [List.getLast?_cons_cons, hw] at hfr
          simp only [Option.getD_some] at htail hfr
          refine .cons hx ?_
          have hqx : q.next a = p.next a :=
            hfr a (List.mem_cons_self _ _) hx_ne
          rw [hqx]
          refine ih (.cons hx3 hc2) (by simp) ?_ ?_ hF
          · intro y hy hyne
            rw [hw] at hyne
            simp only [Option.getD_some] at hyne
            exact hfr y (List.mem_cons_of_mem _ hy) hyne
          · rw [hw]
            simpa using htail

theorem traverse_chain {x : Nat} {l : List Nat} (h : is_chain p x l) :
    p.traverse l.length x = l.map p.value := by
  induction h with
  | nil => rfl
  | cons hx _ ih => simp [stack_pool.traverse, hx, ih]

end chain_lemmas

section op_forms

theorem set_append_length_node (l : List (node_t α)) (a b : node_t α) :
    (l ++ [a]).set l.length b = l ++ [b] := by
  induction l with
  | nil => rfl
  | cons c t ih =>
      simp only [List.cons_append, List.length_cons, List.set_cons_succ, ih]

theorem pop_eq (p : stack_pool α) (head : Nat) :
    p.pop head =
      ({ p.set_next head p.free_nodes with free_nodes := head },
        p.next head) := rfl

theorem push_nonempty_eq (p : stack_pool α) (v : α) (h : Nat)
    (hf : p.free_nodes ≠ sentinel) :
    p._push v h =
      ((({ p with free_nodes := p.next p.free_nodes }).set_next
          p.free_nodes h).set_value p.free_nodes v, p.free_nodes) := by
  simp only [stack_pool._push, if_neg hf]

theorem push_empty_eq (p : stack_pool α) (v : α) (h : Nat)
    (hf : p.free_nodes = sentinel) :
    p._push v h =
      ({ pool := p.pool ++ [{ value := v, next := h }],
         cap := if p.pool.length < p.cap then p.cap else max 1 (2 * p.cap),
         free_nodes := sentinel }, p.pool.length + 1) := by
  simp only [stack_pool._push, hf, if_pos, stack_pool.push_back,
    stack_pool.set_next, stack_pool.set_value, stack_pool.node,
    stack_pool.next, List.getD_eq_getElem?_getD, List.length_append,
    List.length_singleton, Nat.add_sub_cancel, List.getElem?_concat_length,
    Option.getD_some, set_append_length_node]

end op_forms

section preservation

theorem next_append_pool (p : stack_pool α) (nd : node_t α) (c f : Nat)
    {x : Nat} (hx : 1 ≤ x) (hlen : x ≤ p.pool.length) :
    ({ pool := p.pool ++ [nd], cap := c, free_nodes := f } :
      stack_pool α).next x = p.next x := by
  have hidx : x - 1 < p.pool.length := by omega
  simp [stack_pool.next, stack_pool.node, List.getD_eq_getElem?_getD,
    List.getElem?_append, hidx]

theorem value_append_pool (p : stack_pool α) (nd : node_t α) (c f : Nat)
    {x : Nat} (hx : 1 ≤ x) (hlen : x ≤ p.pool.length) :
    ({ pool := p.pool ++ [nd], cap := c, free_nodes := f } :
      stack_pool α).value x = p.value x := by
  have hidx : x - 1 < p.pool.length := by omega
  simp [stack_pool.value, stack_pool.node, List.getD_eq_getElem?_getD,
    List.getElem?_append, hidx]

theorem next_append_pool_self (p : stack_pool α) (nd : node_t α) (c f : Nat) :
    ({ pool := p.pool ++ [nd], cap := c, free_nodes := f } :
      stack_pool α).next (p.pool.length + 1) = nd.next := by
  simp [stack_pool.next, stack_pool.node, List.getD_eq_getElem?_getD,
    Nat.add_sub_cancel, List.getElem?_concat_length]

theorem value_append_pool_self (p : stack_pool α) (nd : node_t α) (c f : Nat) :
    ({ pool := p.pool ++ [nd], cap := c, free_nodes := f } :
      stack_pool α).value (p.pool.length + 1) = nd.value := by
  simp [stack_pool.value, stack_pool.node, List.getD_eq_getElem?_getD,
    Nat.add_sub_cancel, List.getElem?_concat_length]

/-- One `_push` with a non-empty free list: the returned handle is the
free-list head, no storage growth happens, and the free list loses exactly
its head. -/
theorem push_free_cons {p : stack_pool α} {F : List Nat}
    (hF : is_chain p p.free_nodes F) (hrF : in_range p F) (hne : F ≠ [])
    (v : α) (h : Nat) :
    (p._push v h).2 = p.free_nodes ∧
    (p._push v h).1.cap = p.cap ∧
    (p._push v h).1.pool.length = p.pool.length ∧
    is_chain (p._push v h).1 (p._push v h).1.free_nodes F.tail ∧
    in_range (p._push v h).1 F.tail := by
  cases F with
  | nil => exact absurd rfl hne
  | cons f F2 =>
      obtain ⟨hf_eq, hfne, hc2⟩ := chain_cons_inv hF
      have hnd := chain_nodup hF
      have hf1 : 1 ≤ p.free_nodes := by
        have h0 : p.free_nodes ≠ 0 := hfne
        omega
      have hfle : p.free_nodes ≤ p.pool.length := by
        refine hrF _ ?_
        rw [hf_eq]
        exact List.mem_cons_self _ _
      rw [push_nonempty_eq p v h hfne]
      refine ⟨rfl, rfl, ?_, ?_, ?_⟩
      · simp [length_set_value, length_set_next]
      · show is_chain _ (p.next p.free_nodes) F2
        refine chain_frame hc2 ?_
        intro y hy
        have hy1 : 1 ≤ y := chain_pos hc2 y hy
        have hfnF2 : p.free_nodes ∉ F2 := by
          rw [hf_eq] at hnd
          exact (List.nodup_cons.1 hnd).1
        have hyne : y ≠ p.free_nodes := fun hcon => hfnF2 (hcon ▸ hy)
        rw [next_set_value, next_set_next_ne _ hy1 hf1 hyne]
        rfl
      · intro y hy
        have hle : y ≤ p.pool.length := by
          refine hrF y ?_
          rw [hf_eq]
          exact List.mem_cons_of_mem _ hy
        simpa [length_set_value, length_set_next] using hle

/-- One `_push` with an empty free list: a fresh node is appended and
returned, and the free list stays empty. -/
theorem push_free_empty {p : stack_pool α} (hf : p.free_nodes = sentinel)
    (v : α) (h : Nat) :
    (p._push v h).2 = p.pool.length + 1 ∧
    (p._push v h).1.pool.length = p.pool.length + 1 ∧
    (p._push v h).1.free_nodes = sentinel := by
  rw [push_empty_eq p v h hf]
  refine ⟨rfl, ?_, rfl⟩
  simp

/-- One `_push` preserves the stack chain (the pushed node becomes the head),
preserves the free-list invariant, and changes no stored value outside the
pushed node. -/
theorem push_step {p : stack_pool α} {S F : List Nat} {h : Nat} (v : α)
    (hS : is_chain p h S) (hF : is_chain p p.free_nodes F)
    (hrS : in_range p S) (hrF : in_range p F)
    (hd : ∀ x ∈ S, x ∉ F) :
    ∃ F2,
      is_chain (p._push v h).1 (p._push v h).2 ((p._push v h).2 :: S) ∧
      is_chain (p._push v h).1 (p._push v h).1.free_nodes F2 ∧
      in_range (p._push v h).1 ((p._push v h).2 :: S) ∧
      in_range (p._push v h).1 F2 ∧
      (∀ x ∈ (p._push v h).2 :: S, x ∉ F2) ∧
      ((p._push v h).2 :: S).map (p._push v h).1.value =
        v :: S.map p.value := by
  by_cases hf : p.free_nodes = sentinel
  · have hFnil : F = [] := by
      rw [hf] at hF
      exact chain_sentinel hF
    subst hFnil
    rw [push_empty_eq p v h hf]
    refine ⟨[], ?_, .nil, ?_, ?_, ?_, ?_⟩
    · refine .cons (Nat.succ_ne_zero _) ?_
      rw [next_append_pool_self]
      refine chain_frame hS ?_
      intro y hy
      exact next_append_pool p _ _ _ (chain_pos hS y hy) (hrS y hy)
    · intro x hx
      rcases List.mem_cons.1 hx with h1 | h1
      · subst h1; simp
      · have h2 := hrS x h1
        simp only [List.length_append, List.length_singleton]
        omega
    · intro x hx
      cases hx
    · intro x _ hx
      cases hx
    · simp only [List.map_cons, value_append_pool_self]
      congr 1
      refine List.map_congr_left ?_
      intro y hy
      exact value_append_pool p _ _ _ (chain_pos hS y hy) (hrS y hy)
  · have hFne : F ≠ [] := by
      intro h0
      subst h0
      exact hf (chain_nil_eq hF)
    cases F with
    | nil => exact absurd rfl hFne
    | cons f F2 =>
        obtain ⟨hf_eq, hfne, hc2⟩ := chain_cons_inv hF
        have hnd := chain_nodup hF
        have hfnF2 : p.free_nodes ∉ F2 := by
          rw [hf_eq] at hnd
          exact (List.nodup_cons.1 hnd).1
        have hf1 : 1 ≤ p.free_nodes := by
          have h0 : p.free_nodes ≠ 0 := hfne
          omega
        have hfle : p.free_nodes ≤ p.pool.length := by
          refine hrF _ ?_
          rw [hf_eq]
          exact List.mem_cons_self _ _
        have hSnotf : ∀ y ∈ S, y ≠ p.free_nodes := by
          intro y hy hcon
          refine hd y hy ?_
          rw [hf_eq, ← hcon]
          exact List.mem_cons_self _ _
        rw [push_nonempty_eq p v h hfne]
        have hnext_self :
            ((({ p with free_nodes := p.next p.free_nodes }).set_next
              p.free_nodes h).set_value p.free_nodes v).next p.free_nodes
              = h := by
          rw [next_set_value]
          exact next_set_next_self _ hf1 hfle h
        have hnext_ne : ∀ y, 1 ≤ y → y ≠ p.free_nodes →
            ((({ p with free_nodes := p.next p.free_nodes }).set_next
              p.free_nodes h).set_value p.free_nodes v).next y = p.next y := by
          intro y hy1 hyne
          rw [next_set_value]
          exact next_set_next_ne _ hy1 hf1 hyne _
        refine ⟨F2, ?_, ?_, ?_, ?_, ?_, ?_⟩
        · refine .cons hfne ?_
          rw [hnext_self]
          refine chain_frame hS ?_
          intro y hy
          exact hnext_ne y (chain_pos hS y hy) (hSnotf y hy)
        · show is_chain _ (p.next p.free_nodes) F2
          refine chain_frame hc2 ?_
          intro y hy
          have hyne : y ≠ p.free_nodes := fun hcon => hfnF2 (hcon ▸ hy)
          exact hnext_ne y (chain_pos hc2 y hy) hyne
        · intro x hx
          simp only [length_set_value, length_set_next]
          rcases List.mem_cons.1 hx with h1 | h1
          · subst h1; exact hfle
          · exact hrS x h1
        · intro x hx
          simp only [length_set_value, length_set_next]
          refine hrF x ?_
          rw [hf_eq]
          exact List.mem_cons_of_mem _ hx
        · intro x hx
          rcases List.mem_cons.1 hx with h1 | h1
          · subst h1
            exact hfnF2
          · intro hmem
            refine hd x h1 ?_
            rw [hf_eq]
            exact List.mem_cons_of_mem _ hmem
        · simp only [List.map_cons]
          have hval_self :
              ((({ p with free_nodes := p.next p.free_nodes }).set_next
                p.free_nodes h).set_value p.free_nodes v).value p.free_nodes
                = v := by
            refine value_set_value_self _ hf1 ?_ v
            simpa [length_set_next] using hfle
          rw [hval_self]
          congr 1
          refine List.map_congr_left ?_
          intro y hy
          rw [value_set_value_ne _ (chain_pos hS y hy) hf1 (hSnotf y hy) v,
            value_set_next]
          rfl

/-- Pushing a whole list of values preserves the stack-chain and free-list
invariants, and the resulting stack holds the pushed values in reverse order
on top of the old ones. -/
theorem push_seq_inv :
    ∀ (vs : List α) (p : stack_pool α) (h : Nat) (S F : List Nat),
    is_chain p h S → is_chain p p.free_nodes F → in_range p S →
    in_range p F → (∀ x ∈ S, x ∉ F) →
    ∃ S2 F2,
      is_chain (p.push_seq h vs).1 (p.push_seq h vs).2 S2 ∧
      is_chain (p.push_seq h vs).1 (p.push_seq h vs).1.free_nodes F2 ∧
      in_range (p.push_seq h vs).1 S2 ∧
      in_range (p.push_seq h vs).1 F2 ∧
      (∀ x ∈ S2, x ∉ F2) ∧
      S2.map (p.push_seq h vs).1.value = vs.reverse ++ S.map p.value := by
  intro vs
  induction vs with
  | nil =>
      intro p h S F h1 h2 h3 h4 h5
      exact ⟨S, F, h1, h2, h3, h4, h5, by simp [stack_pool.push_seq]⟩
  | cons v vs ih =>
      intro p h S F h1 h2 h3 h4 h5
      obtain ⟨F2, c1, c2, c3, c4, c5, c6⟩ := push_step v h1 h2 h3 h4 h5
      have hseq : p.push_seq h (v :: vs) =
          (p._push v h).1.push_seq (p._push v h).2 vs := rfl
      rw [hseq]
      obtain ⟨S3, F3, d1, d2, d3, d4, d5, d6⟩ :=
        ih (p._push v h).1 (p._push v h).2 _ F2 c1 c2 c3 c4 c5
      refine ⟨S3, F3, d1, d2, d3, d4, d5, ?_⟩
      rw [d6, c6]
      simp

/-- The element visited by `getLastD` belongs to the list when it is not
empty. -/
theorem getLast_getD_mem {l : List Nat} (h : l ≠ []) :
    (l.getLast?).getD 0 ∈ l := by
  rw [List.getLast?_eq_getLast _ h, Option.getD_some]
  exact List.getLast_mem h

/-- Source `pop` on a live, in-range handle outside the free list prepends that
handle to the free list. -/
theorem pop_free {p : stack_pool α} {F : List Nat} {h : Nat}
    (hF : is_chain p p.free_nodes F) (hrF : in_range p F)
    (hh : h ≠ sentinel) (hlen : h ≤ p.pool.length) (hmem : h ∉ F) :
    is_chain (p.pop h).1 (p.pop h).1.free_nodes (h :: F) ∧
    in_range (p.pop h).1 (h :: F) := by
  have h1 : 1 ≤ h := by
    have h0 : h ≠ 0 := hh
    omega
  rw [pop_eq]
  constructor
  · show is_chain _ h (h :: F)
    refine .cons hh ?_
    have hq : ({ p.set_next h p.free_nodes with free_nodes := h } :
        stack_pool α).next h = p.free_nodes := next_set_next_self p h1 hlen _
    rw [hq]
    refine chain_frame hF ?_
    intro y hy
    have hyne : y ≠ h := fun hcon => hmem (hcon ▸ hy)
    exact next_set_next_ne p (chain_pos hF y hy) h1 hyne _
  · intro x hx
    simp only [length_set_next]
    rcases List.mem_cons.1 hx with hx1 | hx1
    · subst hx1; exact hlen
    · exact hrF x hx1

/-- Closed form of `free_stack` on a non-empty, in-range, sentinel-terminated
chain: the tail node's `next` is redirected to the old free-list head and the
chain head becomes the free-list head. -/
theorem free_stack_eq {p : stack_pool α} {head : Nat} {l : List Nat}
    (hc : is_chain p head l) (hh : head ≠ sentinel) (hr : in_range p l) :
    p.free_stack head =
      ({ p.set_next ((l.getLast?).getD 0) p.free_nodes with
          free_nodes := head }, sentinel) := by
  have hlen := chain_length_le hc hr
  have hfuel : l.length ≤ p.pool.length + 1 := by omega
  have ht := find_tail_spec hc hh hfuel
  simp only [stack_pool.free_stack, if_neg hh, ht]

/-- Source `free_stack` splices the whole released chain, in order, in front of the
free list. -/
theorem free_stack_splice {p : stack_pool α} {head : Nat} {l F : List Nat}
    (hc : is_chain p head l) (hh : head ≠ sentinel) (hrl : in_range p l)
    (hF : is_chain p p.free_nodes F) (hrF : in_range p F)
    (hd : ∀ x ∈ l, x ∉ F) :
    is_chain (p.free_stack head).1 (p.free_stack head).1.free_nodes
      (l ++ F) ∧
    in_range (p.free_stack head).1 (l ++ F) := by
  have hl_ne : l ≠ [] := by
    intro h0
    subst h0
    exact hh (chain_nil_eq hc)
  have ht_mem : (l.getLast?).getD 0 ∈ l := getLast_getD_mem hl_ne
  have ht1 : 1 ≤ (l.getLast?).getD 0 := chain_pos hc _ ht_mem
  have htle : (l.getLast?).getD 0 ≤ p.pool.length := hrl _ ht_mem
  rw [free_stack_eq hc hh hrl]
  constructor
  · show is_chain _ head (l ++ F)
    have hfr : ∀ y ∈ l, y ≠ (l.getLast?).getD 0 →
        ({ p.set_next ((l.getLast?).getD 0) p.free_nodes with
          free_nodes := head } : stack_pool α).next y = p.next y := by
      intro y hy hyne
      exact next_set_next_ne p (chain_pos hc y hy) ht1 hyne _
    have hself : ({ p.set_next ((l.getLast?).getD 0) p.free_nodes with
          free_nodes := head } : stack_pool α).next ((l.getLast?).getD 0)
        = p.free_nodes := next_set_next_self p ht1 htle _
    have hFq : is_chain
        ({ p.set_next ((l.getLast?).getD 0) p.free_nodes with
          free_nodes := head } : stack_pool α) p.free_nodes F := by
      refine chain_frame hF ?_
      intro y hy
      have hyne : y ≠ (l.getLast?).getD 0 :=
        fun hcon => hd _ (hcon ▸ ht_mem) hy
      exact next_set_next_ne p (chain_pos hF y hy) ht1 hyne _
    exact chain_splice hc hl_ne hfr hself hFq
  · intro x hx
    simp only [length_set_next]
    rcases List.mem_append.1 hx with hx1 | hx1
    · exact hrl x hx1
    · exact hrF x hx1

/-- With a free list of at least `vs.length` nodes, the handles handed out by
pushing `vs` are exactly the first `vs.length` free-list nodes, in order, and
neither the capacity nor the storage size changes. -/
theorem push_trace_spec :
    ∀ (vs : List α) (p : stack_pool α) (h : Nat) (F : List Nat),
    is_chain p p.free_nodes F → in_range p F → vs.length ≤ F.length →
    p.push_trace h vs = F.take vs.length ∧
    (p.push_seq h vs).1.cap = p.cap ∧
    (p.push_seq h vs).1.pool.length = p.pool.length := by
  intro vs
  induction vs with
  | nil =>
      intro p h F _ _ _
      exact ⟨by simp [stack_pool.push_trace], rfl, rfl⟩
  | cons v vs ih =>
      intro p h F hF hrF hlen
      cases F with
      | nil => simp at hlen
      | cons f F2 =>
          obtain ⟨e1, e2, e3, e4, e5⟩ :=
            push_free_cons hF hrF (by simp) v h
          obtain ⟨hf_eq, hfne, _⟩ := chain_cons_inv hF
          have htr : p.push_trace h (v :: vs) =
              (p._push v h).2 :: (p._push v h).1.push_trace (p._push v h).2 vs :=
            rfl
          have hsq : p.push_seq h (v :: vs) =
              (p._push v h).1.push_seq (p._push v h).2 vs := rfl
          rw [htr, hsq]
          have hlen2 : vs.length ≤ F2.length := by
            simp only [List.length_cons] at hlen
            omega
          obtain ⟨g1, g2, g3⟩ :=
            ih (p._push v h).1 (p._push v h).2 F2 e4 e5 hlen2
          refine ⟨?_, ?_, ?_⟩
          · rw [g1, e1, List.length_cons, List.take_succ_cons, hf_eq]
          · rw [g2, e2]
          · rw [g3, e3]

end preservation

section claims

theorem pc_chain : is_chain pc 3 [3, 2, 1] :=
  .cons (by decide) (.cons (by decide) (.cons (by decide) .nil))

/-- C1: pushing any sequence of values onto an initially-empty stack
(head = `new_stack()`, the sentinel) and then traversing from the head
returned by the last push yields the values in exact reverse order of
insertion (LIFO), for every starting pool whose free list is a valid
in-range chain. -/
theorem C1_push_lifo {p : stack_pool α} {F : List Nat}
    (hF : is_chain p p.free_nodes F) (hrF : in_range p F) (vs : List α) :
    (p.push_seq p.new_stack vs).1.traverse vs.length
      (p.push_seq p.new_stack vs).2 = vs.reverse := by
  obtain ⟨S2, F2, d1, _, _, _, _, d6⟩ :=
    push_seq_inv vs p p.new_stack [] F .nil hF
      (by intro x hx; cases hx) hrF (by intro x hx; cases hx)
  have hmap : S2.map (p.push_seq p.new_stack vs).1.value = vs.reverse := by
    simpa using d6
  have hlen : S2.length = vs.length := by
    have h2 := congrArg List.length hmap
    simpa using h2
  rw [← hlen, traverse_chain d1, hmap]

/-- Witness for C1 at a concrete input. -/
theorem C1_witness :
    ((new_pool Nat).push_seq ((new_pool Nat).new_stack)
        [10, 20, 30]).1.traverse 3
      ((new_pool Nat).push_seq ((new_pool Nat).new_stack) [10, 20, 30]).2
      = [30, 20, 10] :=
  C1_push_lifo .nil (by intro x hx; cases hx) [10, 20, 30]

/-- C2: allocation is free-list-first.  When the free list is non-empty,
`_push` returns its head and neither grows the store nor the capacity; only
when it is empty does one fresh node get appended.  In particular a `pop` of
a non-sentinel head followed immediately by a `push` returns the handle the
pop just freed, with no capacity growth. -/
theorem C2_free_list_first (p : stack_pool α) (v w : α) (h hp head : Nat)
    (hne : head ≠ sentinel) :
    (p.free_nodes ≠ sentinel →
      (p._push v h).2 = p.free_nodes ∧
      (p._push v h).1.cap = p.cap ∧
      (p._push v h).1.pool.length = p.pool.length) ∧
    (p.free_nodes = sentinel →
      (p._push v h).2 = p.pool.length + 1 ∧
      (p._push v h).1.pool.length = p.pool.length + 1) ∧
    ((p.pop head).1._push w hp).2 = head ∧
    ((p.pop head).1._push w hp).1.cap = p.cap := by
  have hfq : (p.pop head).1.free_nodes = head := rfl
  have hq : (p.pop head).1.free_nodes ≠ sentinel := by
    rw [hfq]
    exact hne
  refine ⟨?_, ?_, ?_, ?_⟩
  · intro hf
    rw [push_nonempty_eq p v h hf]
    exact ⟨rfl, rfl, by simp [length_set_value, length_set_next]⟩
  · intro hf
    rw [push_empty_eq p v h hf]
    exact ⟨rfl, by simp⟩
  · rw [push_nonempty_eq _ w hp hq]
    exact hfq
  · rw [push_nonempty_eq _ w hp hq]
    rfl

/-- Witness for C2 at a concrete input. -/
theorem C2_witness :
    (pc.free_nodes ≠ sentinel →
      (pc._push 5 0).2 = pc.free_nodes ∧
      (pc._push 5 0).1.cap = pc.cap ∧
      (pc._push 5 0).1.pool.length = pc.pool.length) ∧
    (pc.free_nodes = sentinel →
      (pc._push 5 0).2 = pc.pool.length + 1 ∧
      (pc._push 5 0).1.pool.length = pc.pool.length + 1) ∧
    ((pc.pop 3).1._push 7 0).2 = 3 ∧
    ((pc.pop 3).1._push 7 0).1.cap = pc.cap :=
  C2_free_list_first pc 5 7 0 0 3 (by decide)

/-- C3: `free_stack` always returns the sentinel, is a no-op on the
sentinel, and otherwise (for a sentinel-terminated in-range chain) links the
chain tail to the previous free-list head and makes the chain head the new
free-list head. -/
theorem C3_free_stack (p : stack_pool α) (head : Nat) (l : List Nat)
    (hc : is_chain p head l) (hr : in_range p l) :
    (p.free_stack head).2 = sentinel ∧
    p.free_stack sentinel = (p, sentinel) ∧
    (head ≠ sentinel →
      (p.free_stack head).1.next ((l.getLast?).getD 0) = p.free_nodes ∧
      (p.free_stack head).1.free_nodes = head) := by
  refine ⟨?_, ?_, ?_⟩
  · by_cases hh : head = sentinel
    · subst hh
      rfl
    · rw [free_stack_eq hc hh hr]
  · rfl
  · intro hh
    have hl_ne : l ≠ [] := fun h0 => hh (chain_nil_eq (h0 ▸ hc))
    have ht_mem := getLast_getD_mem hl_ne
    rw [free_stack_eq hc hh hr]
    exact ⟨next_set_next_self p (chain_pos hc _ ht_mem) (hr _ ht_mem) _, rfl⟩

/-- Witness for C3 at a concrete input. -/
theorem C3_witness :
    (pc.free_stack 3).2 = sentinel ∧
    pc.free_stack sentinel = (pc, sentinel) ∧
    (3 ≠ sentinel →
      (pc.free_stack 3).1.next (([3, 2, 1].getLast?).getD 0) = pc.free_nodes ∧
      (pc.free_stack 3).1.free_nodes = 3) :=
  C3_free_stack pc 3 [3, 2, 1] pc_chain (by unfold in_range; decide)

/-- C4: `pop` on a live non-sentinel head returns the old successor, links
the popped node to the previous free-list head, makes it the free-list head,
and modifies nothing else: all values, every other next field, the storage
size and the capacity are unchanged. -/
theorem C4_pop (p : stack_pool α) (head : Nat) (hh : head ≠ sentinel)
    (hr : head ≤ p.pool.length) :
    (p.pop head).2 = p.next head ∧
    (p.pop head).1.next head = p.free_nodes ∧
    (p.pop head).1.free_nodes = head ∧
    (∀ x, 1 ≤ x → x ≠ head → (p.pop head).1.next x = p.next x) ∧
    (∀ x, (p.pop head).1.value x = p.value x) ∧
    (p.pop head).1.pool.length = p.pool.length ∧
    (p.pop head).1.cap = p.cap := by
  have h1 : 1 ≤ head := by
    have h0 : head ≠ 0 := hh
    omega
  rw [pop_eq]
  refine ⟨rfl, ?_, rfl, ?_, ?_, ?_, rfl⟩
  · exact next_set_next_self p h1 hr _
  · intro x hx1 hxne
    exact next_set_next_ne p hx1 h1 hxne _
  · intro x
    exact value_set_next p x head _
  · simp [length_set_next]

/-- Witness for C4 at a concrete input. -/
theorem C4_witness :
    (pc.pop 3).2 = pc.next 3 ∧
    (pc.pop 3).1.next 3 = pc.free_nodes ∧
    (pc.pop 3).1.free_nodes = 3 ∧
    (∀ x, 1 ≤ x → x ≠ 3 → (pc.pop 3).1.next x = pc.next x) ∧
    (∀ x, (pc.pop 3).1.value x = pc.value x) ∧
    (pc.pop 3).1.pool.length = pc.pool.length ∧
    (pc.pop 3).1.cap = pc.cap :=
  C4_pop pc 3 (by decide) (by decide)

/-- C5: after `free_stack` on a live in-range chain of length k disjoint
from the free list, the next k pushes all reuse freed nodes of that chain
and the capacity is unchanged across those pushes. -/
theorem C5_reuse (p : stack_pool α) (head : Nat) (l F : List Nat)
    (vs : List α) (h2 : Nat)
    (hc : is_chain p head l) (hh : head ≠ sentinel) (hrl : in_range p l)
    (hF : is_chain p p.free_nodes F) (hrF : in_range p F)
    (hd : ∀ x ∈ l, x ∉ F) (hlen : vs.length = l.length) :
    (∀ x ∈ (p.free_stack head).1.push_trace h2 vs, x ∈ l) ∧
    ((p.free_stack head).1.push_seq h2 vs).1.cap = p.cap := by
  obtain ⟨hchain, hrange⟩ := free_stack_splice hc hh hrl hF hrF hd
  have hcap_fs : (p.free_stack head).1.cap = p.cap := by
    rw [free_stack_eq hc hh hrl]
    rfl
  have hlen_le : vs.length ≤ (l ++ F).length := by
    rw [List.length_append, hlen]
    omega
  obtain ⟨g1, g2, g3⟩ :=
    push_trace_spec vs (p.free_stack head).1 h2 (l ++ F) hchain hrange hlen_le
  constructor
  · intro x hx
    rw [g1, hlen, List.take_left] at hx
    exact hx
  · rw [g2, hcap_fs]

/-- Witness for C5 at a concrete input. -/
theorem C5_witness :
    (∀ x ∈ (pc.free_stack 3).1.push_trace 0 [7, 8, 9], x ∈ [3, 2, 1]) ∧
    ((pc.free_stack 3).1.push_seq 0 [7, 8, 9]).1.cap = pc.cap :=
  C5_reuse pc 3 [3, 2, 1] [] [7, 8, 9] 0 pc_chain (by decide)
    (by unfold in_range; decide) .nil (by intro x hx; cases hx)
    (by intro x hx hmem; cases hmem) (by decide)

/-- C6: starting from the default-constructed pool (empty free list), the
free-list invariant — the free list is a sentinel-terminated chain of
in-range handles, hence non-revisiting — holds and is preserved by `_push`,
by `pop` on a live non-sentinel head outside the free list, and by
`free_stack` on a sentinel-terminated in-range chain disjoint from the free
list. -/
theorem C6_free_list_invariant :
    free_ok (new_pool α) ∧
    (∀ (p : stack_pool α) (v : α) (h : Nat),
      free_ok p → free_ok (p._push v h).1) ∧
    (∀ (p : stack_pool α) (h : Nat) (F : List Nat),
      is_chain p p.free_nodes F → in_range p F → h ≠ sentinel →
      h ≤ p.pool.length → h ∉ F → free_ok (p.pop h).1) ∧
    (∀ (p : stack_pool α) (h : Nat) (l F : List Nat),
      is_chain p h l → in_range p l → is_chain p p.free_nodes F →
      in_range p F → (∀ x ∈ l, x ∉ F) → free_ok (p.free_stack h).1) := by
  refine ⟨⟨[], .nil, by intro x hx; cases hx⟩, ?_, ?_, ?_⟩
  · intro p v h hok
    obtain ⟨F, hF, hrF⟩ := hok
    by_cases hf : p.free_nodes = sentinel
    · obtain ⟨_, _, h3⟩ := push_free_empty hf v h
      refine ⟨[], ?_, by intro x hx; cases hx⟩
      rw [h3]
      exact .nil
    · have hFne : F ≠ [] := fun h0 => hf (chain_nil_eq (h0 ▸ hF))
      obtain ⟨_, _, _, h4, h5⟩ := push_free_cons hF hrF hFne v h
      exact ⟨F.tail, h4, h5⟩
  · intro p h F hF hrF hh hle hmem
    obtain ⟨h1, h2⟩ := pop_free hF hrF hh hle hmem
    exact ⟨h :: F, h1, h2⟩
  · intro p h l F hc hrl hF hrF hd
    by_cases hh : h = sentinel
    · subst hh
      exact ⟨F, hF, hrF⟩
    · obtain ⟨h1, h2⟩ := free_stack_splice hc hh hrl hF hrF hd
      exact ⟨l ++ F, h1, h2⟩

/-- Witness for C6 at a concrete input. -/
theorem C6_witness : free_ok (pc.pop 3).1 :=
  C6_free_list_invariant.2.2.1 pc 3 [] .nil (by intro x hx; cases hx)
    (by decide) (by decide) (by intro hx; cases hx)

/-- C7: the capacity never decreases across any sequence of pool operations,
and `reserve n` never shrinks it, for any `n`. -/
theorem C7_capacity_monotone (p : stack_pool α) (ops : List (op α))
    (n : Nat) :
    p.capacity ≤ (p.run ops).capacity ∧
    p.capacity ≤ (p.reserve n).capacity := by
  constructor
  · induction ops generalizing p with
    | nil => exact Nat.le_refl _
    | cons o os ih =>
        have hstep : p.capacity ≤ (p.step o).capacity := by
          cases o with
          | new_stack => exact Nat.le_refl _
          | reserve m => exact Nat.le_max_left _ _
          | push v h =>
              by_cases hf : p.free_nodes = sentinel
              · rw [stack_pool.step, push_empty_eq p v h hf]
                show p.cap ≤
                  if p.pool.length < p.cap then p.cap else max 1 (2 * p.cap)
                by_cases hlt : p.pool.length < p.cap
                · rw [if_pos hlt]
                · rw [if_neg hlt]
                  omega
              · rw [stack_pool.step, push_nonempty_eq p v h hf]
                exact Nat.le_refl _
          | pop h => exact Nat.le_refl _
          | free_stack h =>
              by_cases hh : h = sentinel
              · subst hh
                exact Nat.le_refl _
              · show p.cap ≤ ((p.free_stack h).1).cap
                rw [stack_pool.free_stack, if_neg hh]
                exact Nat.le_refl _
        exact Nat.le_trans hstep (ih (p.step o))
  · exact Nat.le_max_left _ _

/-- C8: two cursors compare equal exactly when they reference the same
handle (all other cursor state is ignored), and `end(x)` produces the very
same cursor for every handle `x`. -/
theorem C8_iterator_eq :
    (∀ (a b : _iterator α), a.beq b = true ↔ a.head = b.head) ∧
    (∀ (p : stack_pool α) (x y : Nat), p.endIt x = p.endIt y) := by
  constructor
  · intro a b
    simp [_iterator.beq]
  · intro p x y
    rfl

/-- C9: `free_stack` on a non-empty sentinel-terminated in-range chain
modifies exactly the tail node's next field and the free-list head: every
stored value, the next field of every other node, the storage size and the
capacity are unchanged. -/
theorem C9_free_stack_frame (p : stack_pool α) (head : Nat) (l : List Nat)
    (hc : is_chain p head l) (hh : head ≠ sentinel) (hr : in_range p l) :
    (p.free_stack head).1.free_nodes = head ∧
    (p.free_stack head).1.next ((l.getLast?).getD 0) = p.free_nodes ∧
    (∀ x, (p.free_stack head).1.value x = p.value x) ∧
    (∀ x, 1 ≤ x → x ≠ (l.getLast?).getD 0 →
      (p.free_stack head).1.next x = p.next x) ∧
    (p.free_stack head).1.pool.length = p.pool.length ∧
    (p.free_stack head).1.cap = p.cap := by
  have hl_ne : l ≠ [] := fun h0 => hh (chain_nil_eq (h0 ▸ hc))
  have ht_mem := getLast_getD_mem hl_ne
  have ht1 : 1 ≤ (l.getLast?).getD 0 := chain_pos hc _ ht_mem
  have htle := hr _ ht_mem
  rw [free_stack_eq hc hh hr]
  refine ⟨rfl, ?_, ?_, ?_, ?_, rfl⟩
  · exact next_set_next_self p ht1 htle _
  · intro x
    exact value_set_next p x _ _
  · intro x hx1 hxne
    exact next_set_next_ne p hx1 ht1 hxne _
  · simp [length_set_next]

/-- Witness for C9 at a concrete input. -/
theorem C9_witness :
    (pc.free_stack 3).1.free_nodes = 3 ∧
    (pc.free_stack 3).1.next (([3, 2, 1].getLast?).getD 0) = pc.free_nodes ∧
    (∀ x, (pc.free_stack 3).1.value x = pc.value x) ∧
    (∀ x, 1 ≤ x → x ≠ ([3, 2, 1].getLast?).getD 0 →
      (pc.free_stack 3).1.next x = pc.next x) ∧
    (pc.free_stack 3).1.pool.length = pc.pool.length ∧
    (pc.free_stack 3).1.cap = pc.cap :=
  C9_free_stack_frame pc 3 [3, 2, 1] pc_chain (by decide)
    (by unfold in_range; decide)

/-- C10: cursor copy-assignment copies only the referenced handle; the
assigned cursor keeps its own pool binding, so it dereferences and advances
through the pool it was originally constructed over. -/
theorem C10_assign_frame (a b : _iterator α) :
    (a.assign b).head = b.head ∧
    (a.assign b).pool = a.pool ∧
    (a.assign b).deref = a.pool.value b.head ∧
    (a.assign b).inc = { head := a.pool.next b.head, pool := a.pool } := by
  exact ⟨rfl, rfl, rfl, rfl⟩

end claims

end StackPool
